import Mathlib

/-!
Verification of the FIFO ring buffer (`fifo_buffer.c`) and the UART message
framing layer (`uart_message_fifo.c`).

The C code is shallowly embedded: the `FIFO_Buffer` struct becomes a Lean
structure, every C function becomes a pure Lean function that threads the
buffer state explicitly, and functions that write through pointers return
the written values as extra components.  Machine integers are modelled as
`Nat`: all the quantities involved (`head`, `tail`, `count`, indices, byte
values) stay strictly below their C types' ranges in every reachable state,
and the single place where C signed arithmetic can go negative
(`BUFFER_SIZE - fifo->count` in `Add_UART_Message`, computed in `int` after
integer promotion) is modelled with `Int`.
-/

namespace Fifo

/-- Shallow embedding of the C struct `FIFO_Buffer` from `fifo_buffer.h`.
The byte array behind the `uint8_t *buffer` pointer is modelled as a
`List Nat` of length `size`. -/
structure FIFO_Buffer where
  buffer : List Nat
  size : Nat
  head : Nat
  tail : Nat
  count : Nat
  high_watermark : Nat
  low_watermark : Nat
  overwrite_enabled : Bool
deriving Repr, DecidableEq

/-- `#define MESSAGE_START_BYTE 0xAA` from `uart_message_fifo.h`. -/
def MESSAGE_START_BYTE : Nat := 0xAA

/-- `#define BUFFER_SIZE 128` from `uart_message_fifo.h`. -/
def BUFFER_SIZE : Nat := 128

/-- `FIFO_Init` from `fifo_buffer.c`: binds caller-provided storage and
resets the bookkeeping; watermarks default to 75% / 25% of `size`. -/
def FIFO_Init (buffer : List Nat) (size : Nat) : FIFO_Buffer :=
  { buffer := buffer
    size := size
    head := 0
    tail := 0
    count := 0
    high_watermark := size - size / 4
    low_watermark := size / 4
    overwrite_enabled := false }

/-- `FIFO_Init_Dynamic` from `fifo_buffer.c`, successful-allocation case:
`storage` stands for the freshly `malloc`ed block of `size` bytes (its
contents are arbitrary, exactly as after `malloc`). -/
def FIFO_Init_Dynamic (storage : List Nat) (size : Nat) : FIFO_Buffer :=
  { buffer := storage
    size := size
    head := 0
    tail := 0
    count := 0
    high_watermark := size - 1
    low_watermark := 1
    overwrite_enabled := false }

/-- `FIFO_Reset` from `fifo_buffer.c`. -/
def FIFO_Reset (fifo : FIFO_Buffer) : FIFO_Buffer :=
  { fifo with head := 0, tail := 0, count := 0 }

/-- `FIFO_Push` from `fifo_buffer.c`.  Returns the C `bool` result together
with the updated buffer state. -/
def FIFO_Push (fifo : FIFO_Buffer) (data : Nat) : Bool × FIFO_Buffer :=
  if fifo.count = fifo.size then
    if fifo.overwrite_enabled then
      let fifo1 := { fifo with tail := (fifo.tail + 1) % fifo.size }
      (true, { fifo1 with
                buffer := fifo1.buffer.set fifo1.head data
                head := (fifo1.head + 1) % fifo1.size })
    else
      (false, fifo)
  else
    let fifo1 := { fifo with count := fifo.count + 1 }
    (true, { fifo1 with
              buffer := fifo1.buffer.set fifo1.head data
              head := (fifo1.head + 1) % fifo1.size })

/-- `FIFO_PushOverwrite` from `fifo_buffer.c` (void return). -/
def FIFO_PushOverwrite (fifo : FIFO_Buffer) (data : Nat) : FIFO_Buffer :=
  if fifo.count = fifo.size then
    let fifo1 := { fifo with tail := (fifo.tail + 1) % fifo.size }
    { fifo1 with
      buffer := fifo1.buffer.set fifo1.head data
      head := (fifo1.head + 1) % fifo1.size }
  else
    let fifo1 := { fifo with count := fifo.count + 1 }
    { fifo1 with
      buffer := fifo1.buffer.set fifo1.head data
      head := (fifo1.head + 1) % fifo1.size }

/-- `FIFO_Pop` from `fifo_buffer.c`.  The first component is the value
written through the `uint8_t *data` out-pointer (`none` when the C function
returns `false` without writing). -/
def FIFO_Pop (fifo : FIFO_Buffer) : Option Nat × FIFO_Buffer :=
  if fifo.count = 0 then
    (none, fifo)
  else
    (some (fifo.buffer.getD fifo.tail 0),
     { fifo with tail := (fifo.tail + 1) % fifo.size, count := fifo.count - 1 })

/-- `FIFO_Peek` from `fifo_buffer.c`: reads without mutating. -/
def FIFO_Peek (fifo : FIFO_Buffer) (index : Nat) : Option Nat :=
  if index ≥ fifo.count then
    none
  else
    some (fifo.buffer.getD ((fifo.tail + index) % fifo.size) 0)

/-- `FIFO_IsEmpty` from `fifo_buffer.c`. -/
def FIFO_IsEmpty (fifo : FIFO_Buffer) : Bool :=
  fifo.count == 0

/-- `FIFO_IsFull` from `fifo_buffer.c`. -/
def FIFO_IsFull (fifo : FIFO_Buffer) : Bool :=
  fifo.count == fifo.size

/-- `FIFO_SetOverwrite` from `fifo_buffer.c`. -/
def FIFO_SetOverwrite (fifo : FIFO_Buffer) (enable : Bool) : FIFO_Buffer :=
  { fifo with overwrite_enabled := enable }

/-- `FIFO_CheckWatermarks` from `fifo_buffer.c`.  The C function returns
`void` and both branch bodies are empty (comments only), so the embedding
returns `Unit` together with the (unchanged) state, keeping the source's
branch structure. -/
def FIFO_CheckWatermarks (fifo : FIFO_Buffer) : Unit × FIFO_Buffer :=
  if fifo.count ≥ fifo.high_watermark then
    ((), fifo)
  else if fifo.count ≤ fifo.low_watermark then
    ((), fifo)
  else
    ((), fifo)

/-- Which of the three branches of `FIFO_CheckWatermarks` the control flow
takes: `high` for the `count >= high_watermark` branch, `low` for the
`count <= low_watermark` branch, `none` when neither comment site is
reached. -/
inductive WatermarkEvent where
  | high
  | low
  | none
deriving Repr, DecidableEq

/-- The branch of `FIFO_CheckWatermarks` selected by its `if`/`else if`
cascade (directly transcribed from the source's conditions, in source
order). -/
def watermarkBranch (fifo : FIFO_Buffer) : WatermarkEvent :=
  if fifo.count ≥ fifo.high_watermark then
    WatermarkEvent.high
  else if fifo.count ≤ fifo.low_watermark then
    WatermarkEvent.low
  else
    WatermarkEvent.none

/-- Iteration kernel of the `Add_UART_Message` `for` loop, structurally
recursive on the number `k` of remaining iterations (`k = length - i`). -/
def addLoopGo (message : List Nat) : Nat → FIFO_Buffer → Nat → Bool × FIFO_Buffer
  | 0, fifo, _ => (true, fifo)
  | k + 1, fifo, i =>
    match FIFO_Push fifo (message.getD i 0) with
    | (true, f) => addLoopGo message k f (i + 1)
    | (false, f) => (false, f)

/-- The `for` loop of `Add_UART_Message` in `uart_message_fifo.c`:
`for (i = 0; i < length; i++) if (!FIFO_Push(fifo, message[i])) return false;`,
embedded by counting down the remaining iterations `length - i`. -/
def addLoop (fifo : FIFO_Buffer) (message : List Nat) (i length : Nat) :
    Bool × FIFO_Buffer :=
  addLoopGo message (length - i) fifo i

/-- `Add_UART_Message` from `uart_message_fifo.c`.  Note that the space
check uses the compile-time constant `BUFFER_SIZE`, not the ring's `size`
field; after C integer promotion `BUFFER_SIZE - fifo->count` is a signed
`int` subtraction, modelled here in `Int`. -/
def Add_UART_Message (fifo : FIFO_Buffer) (message : List Nat) (length : Nat) :
    Bool × FIFO_Buffer :=
  if length < 3 ∨ (BUFFER_SIZE : Int) - (fifo.count : Int) < (length : Int) then
    (false, fifo)
  else
    addLoop fifo message 0 length

/-- Iteration kernel of the `Get_UART_Message` `for` loop, structurally
recursive on the number `k` of remaining iterations. -/
def getLoopGo : Nat → FIFO_Buffer → List Nat → Nat → Nat →
    Bool × FIFO_Buffer × List Nat × Nat
  | 0, fifo, message, checksum, _ => (true, fifo, message, checksum)
  | k + 1, fifo, message, checksum, i =>
    match FIFO_Pop fifo with
    | (none, f) => (false, f, message, checksum)
    | (some b, f) => getLoopGo k f (message.set i b) (checksum ^^^ b) (i + 1)

/-- The `for` loop of `Get_UART_Message` in `uart_message_fifo.c`:
`for (i = 2; i < message_length; i++)`, popping into `message[i]` and
accumulating the XOR checksum; embedded by counting down the remaining
iterations `message_length - i`.  Returns the C control-flow result
(`false` = early `return false` on a failed pop), the ring, the caller's
message buffer, and the checksum accumulator. -/
def getLoop (fifo : FIFO_Buffer) (message : List Nat) (checksum : Nat)
    (i message_length : Nat) : Bool × FIFO_Buffer × List Nat × Nat :=
  getLoopGo (message_length - i) fifo message checksum i

/-- `Get_UART_Message` from `uart_message_fifo.c`.  `message` and `length`
are the caller's output buffer and `uint8_t *length` cell; the result is
`(returned bool, ring state, message buffer, length cell)`. -/
def Get_UART_Message (fifo : FIFO_Buffer) (message : List Nat) (length : Nat) :
    Bool × FIFO_Buffer × List Nat × Nat :=
  if FIFO_IsEmpty fifo then
    (false, fifo, message, length)
  else
    match FIFO_Pop fifo with
    | (none, f) => (false, f, message, length)
    | (some start_byte, f) =>
      if start_byte ≠ MESSAGE_START_BYTE then
        (false, f, message, length)
      else
        match FIFO_Pop f with
        | (none, f2) => (false, f2, message, length)
        | (some message_length, f2) =>
          if message_length < 3 then
            (false, f2, message, length)
          else
            let length1 := message_length
            let message1 := (message.set 0 MESSAGE_START_BYTE).set 1 message_length
            match getLoop f2 message1 0 2 message_length with
            | (false, f3, m3, _) => (false, f3, m3, length1)
            | (true, f3, m3, checksum) =>
              if checksum ≠ 0 then
                (false, f3, m3, length1)
              else
                (true, f3, m3, length1)

/-! ## Abstraction: the ring's logical contents and its invariant -/

/-- The logical contents of the ring, oldest first: the byte at logical
position `i` lives at physical index `(tail + i) % size`. -/
def toList (f : FIFO_Buffer) : List Nat :=
  (List.range f.count).map fun i => f.buffer.getD ((f.tail + i) % f.size) 0

/-- The structural invariant of every reachable ring state: indices in
range, occupancy bounded by capacity, `head` determined by `tail + count`,
and the storage really has `size` cells. -/
def Invariant (f : FIFO_Buffer) : Prop :=
  0 < f.size ∧ f.count ≤ f.size ∧ f.head < f.size ∧ f.tail < f.size ∧
    f.head = (f.tail + f.count) % f.size ∧ f.buffer.length = f.size

instance instDecidableInvariant (f : FIFO_Buffer) : Decidable (Invariant f) := by
  unfold Invariant
  infer_instance

/-! ## Harness combinators used to state the claims -/

/-- Push the bytes of a list one by one with `FIFO_Push`, stopping at the
first failure (combinator used only to state claims about sequences of
pushes). -/
def pushList (f : FIFO_Buffer) : List Nat → Bool × FIFO_Buffer
  | [] => (true, f)
  | b :: bs =>
    match FIFO_Push f b with
    | (true, f1) => pushList f1 bs
    | (false, f1) => (false, f1)

/-- Call `FIFO_Pop` `n` times, collecting the `n` results in order. -/
def popN (f : FIFO_Buffer) : Nat → List (Option Nat) × FIFO_Buffer
  | 0 => ([], f)
  | n + 1 =>
    let r := FIFO_Pop f
    let rs := popN r.2 n
    (r.1 :: rs.1, rs.2)

/-- Overwrite `msg` with the elements of `l` at consecutive positions
starting at `i` (the write pattern of `getLoop`). -/
def writeFrom (msg : List Nat) (i : Nat) : List Nat → List Nat
  | [] => msg
  | b :: bs => writeFrom (msg.set i b) (i + 1) bs

/-- The ring-buffer operations quantified over by the invariant claim. -/
inductive Op where
  | push (b : Nat)
  | pushOverwrite (b : Nat)
  | pop
  | peek (i : Nat)
  | reset
deriving Repr, DecidableEq

/-- Apply one operation to the ring, discarding returned values
(`FIFO_Peek` does not mutate the ring, so `peek` leaves it unchanged). -/
def applyOp (f : FIFO_Buffer) : Op → FIFO_Buffer
  | Op.push b => (FIFO_Push f b).2
  | Op.pushOverwrite b => FIFO_PushOverwrite f b
  | Op.pop => (FIFO_Pop f).2
  | Op.peek _ => f
  | Op.reset => FIFO_Reset f

/-- Apply a sequence of operations in order. -/
def applyOps (f : FIFO_Buffer) (ops : List Op) : FIFO_Buffer :=
  ops.foldl applyOp f

/-! ## Basic list and modular-arithmetic helpers -/

theorem getD_set_self {l : List Nat} {n : Nat} (a : Nat) (h : n < l.length) :
    (l.set n a).getD n 0 = a := by
  rw [List.getD_eq_getElem?_getD, List.getElem?_set_eq_of_lt a h, Option.getD_some]

theorem getD_set_ne {l : List Nat} {m n : Nat} (a : Nat) (h : n ≠ m) :
    (l.set n a).getD m 0 = l.getD m 0 := by
  rw [List.getD_eq_getElem?_getD, List.getElem?_set_ne h, ← List.getD_eq_getElem?_getD]

/-- Offsets below `size` are uniquely determined by their physical ring
index. -/
theorem mod_inj_of_lt {size t i j : Nat} (hi : i < size) (hj : j < size)
    (h : (t + i) % size = (t + j) % size) : i = j := by
  have h2 : i ≡ j [MOD size] := Nat.ModEq.add_left_cancel' t h
  have h3 : i % size = j % size := h2
  rwa [Nat.mod_eq_of_lt hi, Nat.mod_eq_of_lt hj] at h3

/-! ## The abstraction function versus the ring operations -/

theorem toList_length (f : FIFO_Buffer) : (toList f).length = f.count := by
  simp [toList]

theorem toList_eq_nil (f : FIFO_Buffer) (h : f.count = 0) : toList f = [] := by
  simp [toList, h]

/-- A successful (non-full) `FIFO_Push` appends the pushed byte to the
logical contents and preserves the invariant; `tail`, `size` and the
policy fields are untouched. -/
theorem push_append (f : FIFO_Buffer) (b : Nat) (hInv : Invariant f)
    (hc : f.count < f.size) :
    (FIFO_Push f b).1 = true ∧
    Invariant (FIFO_Push f b).2 ∧
    toList (FIFO_Push f b).2 = toList f ++ [b] ∧
    (FIFO_Push f b).2.count = f.count + 1 ∧
    (FIFO_Push f b).2.size = f.size ∧
    (FIFO_Push f b).2.tail = f.tail ∧
    (FIFO_Push f b).2.overwrite_enabled = f.overwrite_enabled ∧
    (FIFO_Push f b).2.high_watermark = f.high_watermark ∧
    (FIFO_Push f b).2.low_watermark = f.low_watermark := by
  obtain ⟨hsz, hcnt, hhd, htl, hht, hlen⟩ := hInv
  have hne : f.count ≠ f.size := Nat.ne_of_lt hc
  have hpush : FIFO_Push f b =
      (true, { f with buffer := f.buffer.set f.head b,
                      head := (f.head + 1) % f.size,
                      count := f.count + 1 }) := by
    simp [FIFO_Push, hne]
  rw [hpush]
  refine ⟨rfl, ⟨hsz, hc, Nat.mod_lt _ hsz, htl, ?_, by simpa using hlen⟩, ?_, rfl, rfl, rfl, rfl, rfl, rfl⟩
  · show (f.head + 1) % f.size = (f.tail + (f.count + 1)) % f.size
    rw [hht, Nat.mod_add_mod, ← Nat.add_assoc]
  · show toList _ = toList f ++ [b]
    unfold toList
    simp only [List.range_succ, List.map_append, List.map_cons, List.map_nil]
    congr 1
    · refine List.map_congr_left fun i hi => ?_
      have hi' : i < f.count := List.mem_range.mp hi
      have hisz : i < f.size := lt_trans hi' hc
      refine getD_set_ne b fun heq => ?_
      have heq2 : (f.tail + f.count) % f.size = (f.tail + i) % f.size := by
        rw [← hht]
        exact heq
      have : f.count = i := mod_inj_of_lt hc hisz heq2
      omega
    · show [(f.buffer.set f.head b).getD ((f.tail + f.count) % f.size) 0] = [b]
      rw [← hht, getD_set_self b (by omega)]

/-- A pop from a non-empty ring returns the head of the logical contents
and leaves exactly the remainder, preserving the invariant. -/
theorem pop_cons (f : FIFO_Buffer) (hInv : Invariant f) {b : Nat} {bs : List Nat}
    (hl : toList f = b :: bs) :
    (FIFO_Pop f).1 = some b ∧
    Invariant (FIFO_Pop f).2 ∧
    toList (FIFO_Pop f).2 = bs ∧
    (FIFO_Pop f).2.count = f.count - 1 ∧
    (FIFO_Pop f).2.size = f.size ∧
    (FIFO_Pop f).2.tail = (f.tail + 1) % f.size ∧
    (FIFO_Pop f).2.buffer = f.buffer := by
  obtain ⟨hsz, hcnt, hhd, htl, hht, hlen⟩ := hInv
  have hc : f.count ≠ 0 := by
    intro h0
    rw [toList_eq_nil f h0] at hl
    exact List.noConfusion hl
  have hpop : FIFO_Pop f =
      (some (f.buffer.getD f.tail 0),
       { f with tail := (f.tail + 1) % f.size, count := f.count - 1 }) := by
    simp [FIFO_Pop, hc]
  obtain ⟨c, hcsucc⟩ : ∃ c, f.count = c + 1 := ⟨f.count - 1, by omega⟩
  have hexp : toList f = f.buffer.getD f.tail 0 ::
      (List.range c).map (fun i => f.buffer.getD ((f.tail + 1 + i) % f.size) 0) := by
    unfold toList
    rw [hcsucc, List.range_succ_eq_map, List.map_cons, List.map_map]
    congr 1
    · rw [Nat.add_zero, Nat.mod_eq_of_lt htl]
    · refine List.map_congr_left fun i _ => ?_
      simp only [Function.comp_apply, Nat.succ_eq_add_one]
      have harg : f.tail + (i + 1) = f.tail + 1 + i := by omega
      rw [harg]
  rw [hl] at hexp
  injection hexp with hb hbs
  rw [hpop]
  refine ⟨by rw [hb], ⟨hsz, (show f.count - 1 ≤ f.size by omega), hhd, Nat.mod_lt _ hsz, ?_, hlen⟩, ?_, rfl, rfl, rfl, rfl⟩
  · show f.head = ((f.tail + 1) % f.size + (f.count - 1)) % f.size
    rw [Nat.mod_add_mod]
    have harg : f.tail + 1 + (f.count - 1) = f.tail + f.count := by omega
    rw [harg, ← hht]
  · show toList _ = bs
    unfold toList
    rw [hbs]
    have hcc : f.count - 1 = c := by omega
    simp only [hcc]
    refine List.map_congr_left fun i _ => ?_
    rw [Nat.mod_add_mod]

/-- A pop from an empty ring fails and changes nothing. -/
theorem pop_empty (f : FIFO_Buffer) (h : f.count = 0) : FIFO_Pop f = (none, f) := by
  simp [FIFO_Pop, h]

/-- In a full ring satisfying the invariant, the write index coincides
with the read index. -/
theorem head_eq_tail_of_full (f : FIFO_Buffer) (hInv : Invariant f)
    (hfull : f.count = f.size) : f.head = f.tail := by
  obtain ⟨hsz, _, _, htl, hht, _⟩ := hInv
  rw [hht, hfull, Nat.add_mod_right, Nat.mod_eq_of_lt htl]

/-- Pushing onto a full ring with overwrite enabled: the result state in
record form. -/
theorem push_full_overwrite_eq (f : FIFO_Buffer) (b : Nat)
    (hfull : f.count = f.size) (hov : f.overwrite_enabled = true) :
    FIFO_Push f b =
      (true, { f with tail := (f.tail + 1) % f.size,
                      buffer := f.buffer.set f.head b,
                      head := (f.head + 1) % f.size }) := by
  simp [FIFO_Push, hfull, hov]

/-- Pushing onto a full ring with overwrite enabled discards the oldest
logical byte and appends the new one; the invariant is preserved and
`count` stays at `size`. -/
theorem push_full_overwrite (f : FIFO_Buffer) (b : Nat) (hInv : Invariant f)
    (hfull : f.count = f.size) (hov : f.overwrite_enabled = true) :
    (FIFO_Push f b).1 = true ∧
    Invariant (FIFO_Push f b).2 ∧
    toList (FIFO_Push f b).2 = (toList f).drop 1 ++ [b] ∧
    (FIFO_Push f b).2.count = f.size ∧
    (FIFO_Push f b).2.tail = (f.tail + 1) % f.size ∧
    (FIFO_Push f b).2.buffer = f.buffer.set f.head b := by
  obtain ⟨hsz, hcnt, hhd, htl, hht, hlen⟩ := hInv
  have hheadtail : f.head = f.tail :=
    head_eq_tail_of_full f ⟨hsz, hcnt, hhd, htl, hht, hlen⟩ hfull
  rw [push_full_overwrite_eq f b hfull hov]
  obtain ⟨s, hssucc⟩ : ∃ s, f.size = s + 1 := ⟨f.size - 1, by omega⟩
  refine ⟨rfl, ⟨hsz, (show f.count ≤ f.size by omega), Nat.mod_lt _ hsz, Nat.mod_lt _ hsz, ?_,
    by simpa using hlen⟩, ?_, (show f.count = f.size from hfull), rfl, rfl⟩
  · show (f.head + 1) % f.size = ((f.tail + 1) % f.size + f.count) % f.size
    rw [Nat.mod_add_mod, hheadtail, hfull, Nat.add_mod_right]
  · show toList _ = (toList f).drop 1 ++ [b]
    have hdrop : (toList f).drop 1 =
        (List.range s).map
          (fun i => f.buffer.getD ((f.tail + 1 + i) % f.size) 0) := by
      unfold toList
      rw [hfull, hssucc, List.range_succ_eq_map, List.map_cons, List.drop_succ_cons,
        List.drop_zero, List.map_map]
      refine List.map_congr_left fun i _ => ?_
      simp only [Function.comp_apply, Nat.succ_eq_add_one]
      have harg : f.tail + (i + 1) = f.tail + 1 + i := by omega
      rw [harg]
    rw [hdrop]
    unfold toList
    have hcount : f.count = s + 1 := by omega
    simp only [hcount]
    rw [List.range_succ, List.map_append, List.map_cons, List.map_nil]
    congr 1
    · refine List.map_congr_left fun i hi => ?_
      have hi' : i < s := List.mem_range.mp hi
      show (f.buffer.set f.head b).getD (((f.tail + 1) % f.size + i) % f.size) 0 = _
      rw [Nat.mod_add_mod]
      refine getD_set_ne b fun heq => ?_
      have heq2 : (f.tail + 0) % f.size = (f.tail + (1 + i)) % f.size := by
        rw [Nat.add_zero, ← Nat.add_assoc, ← heq, hheadtail, Nat.mod_eq_of_lt htl]
      have : (0 : Nat) = 1 + i := mod_inj_of_lt hsz (by omega) heq2
      omega
    · show [(f.buffer.set f.head b).getD (((f.tail + 1) % f.size + s) % f.size) 0] = [b]
      have harg : ((f.tail + 1) % f.size + s) % f.size = f.head := by
        rw [Nat.mod_add_mod, hheadtail, Nat.add_assoc, Nat.add_comm 1 s, ← hssucc,
          Nat.add_mod_right, Nat.mod_eq_of_lt htl]
      rw [harg, getD_set_self b (by omega)]

/-- Pushing onto a full ring with overwrite disabled fails and leaves the
whole state unchanged. -/
theorem push_full_no_overwrite (f : FIFO_Buffer) (b : Nat)
    (hfull : f.count = f.size) (hov : f.overwrite_enabled = false) :
    FIFO_Push f b = (false, f) := by
  simp [FIFO_Push, hfull, hov]

/-- `FIFO_Peek` is lookup in the logical contents (and `none` out of
range). -/
theorem peek_toList (f : FIFO_Buffer) (hInv : Invariant f) (i : Nat) :
    FIFO_Peek f i = (toList f)[i]? := by
  obtain ⟨hsz, hcnt, hhd, htl, hht, hlen⟩ := hInv
  by_cases hi : i < f.count
  · have : ¬ i ≥ f.count := by omega
    rw [FIFO_Peek, if_neg this]
    unfold toList
    rw [List.getElem?_map, List.getElem?_range hi]
    rfl
  · have hge : i ≥ f.count := by omega
    rw [FIFO_Peek, if_pos hge]
    have : (toList f).length ≤ i := by rw [toList_length]; omega
    rw [List.getElem?_eq_none this]

/-! ## Invariant preservation (claim C9 infrastructure) -/

theorem invariant_push (f : FIFO_Buffer) (b : Nat) (hInv : Invariant f) :
    Invariant (FIFO_Push f b).2 := by
  by_cases hfull : f.count = f.size
  · by_cases hov : f.overwrite_enabled = true
    · exact (push_full_overwrite f b hInv hfull hov).2.1
    · rw [push_full_no_overwrite f b hfull (by simpa using hov)]
      exact hInv
  · exact (push_append f b hInv (lt_of_le_of_ne hInv.2.1 hfull)).2.1

theorem invariant_pushOverwrite (f : FIFO_Buffer) (b : Nat) (hInv : Invariant f) :
    Invariant (FIFO_PushOverwrite f b) := by
  obtain ⟨hsz, hcnt, hhd, htl, hht, hlen⟩ := hInv
  by_cases hfull : f.count = f.size
  · have h1 : FIFO_PushOverwrite f b =
        { f with tail := (f.tail + 1) % f.size,
                 buffer := f.buffer.set f.head b,
                 head := (f.head + 1) % f.size } := by
      simp [FIFO_PushOverwrite, hfull]
    have hheadtail : f.head = f.tail := by
      rw [hht, hfull, Nat.add_mod_right, Nat.mod_eq_of_lt htl]
    rw [h1]
    refine ⟨hsz, hcnt, Nat.mod_lt _ hsz, Nat.mod_lt _ hsz, ?_, by simpa using hlen⟩
    show (f.head + 1) % f.size = ((f.tail + 1) % f.size + f.count) % f.size
    rw [Nat.mod_add_mod, hheadtail, hfull, Nat.add_mod_right]
  · have h1 : FIFO_PushOverwrite f b =
        { f with count := f.count + 1,
                 buffer := f.buffer.set f.head b,
                 head := (f.head + 1) % f.size } := by
      simp [FIFO_PushOverwrite, hfull]
    rw [h1]
    refine ⟨hsz, (show f.count + 1 ≤ f.size by omega), Nat.mod_lt _ hsz, htl, ?_,
      by simpa using hlen⟩
    show (f.head + 1) % f.size = (f.tail + (f.count + 1)) % f.size
    rw [hht, Nat.mod_add_mod, ← Nat.add_assoc]

theorem invariant_pop (f : FIFO_Buffer) (hInv : Invariant f) :
    Invariant (FIFO_Pop f).2 := by
  by_cases hc : f.count = 0
  · rw [pop_empty f hc]
    exact hInv
  · obtain ⟨b, bs, hcons⟩ : ∃ b bs, toList f = b :: bs := by
      have hlen : (toList f).length = f.count := toList_length f
      cases hl : toList f with
      | nil => rw [hl] at hlen; simp at hlen; omega
      | cons b bs => exact ⟨b, bs, rfl⟩
    exact (pop_cons f hInv hcons).2.1

theorem invariant_reset (f : FIFO_Buffer) (hInv : Invariant f) :
    Invariant (FIFO_Reset f) := by
  obtain ⟨hsz, _, _, _, _, hlen⟩ := hInv
  exact ⟨hsz, Nat.zero_le _, hsz, hsz, by simp [FIFO_Reset], hlen⟩

theorem invariant_applyOp (f : FIFO_Buffer) (op : Op) (hInv : Invariant f) :
    Invariant (applyOp f op) := by
  cases op with
  | push b => exact invariant_push f b hInv
  | pushOverwrite b => exact invariant_pushOverwrite f b hInv
  | pop => exact invariant_pop f hInv
  | peek i => exact hInv
  | reset => exact invariant_reset f hInv

theorem invariant_applyOps (f : FIFO_Buffer) (ops : List Op) (hInv : Invariant f) :
    Invariant (applyOps f ops) := by
  induction ops generalizing f with
  | nil => exact hInv
  | cons op ops ih => exact ih _ (invariant_applyOp f op hInv)

theorem invariant_init (buffer : List Nat) (size : Nat)
    (hlen : buffer.length = size) (hsz : 1 ≤ size) :
    Invariant (FIFO_Init buffer size) :=
  ⟨hsz, by simp [FIFO_Init], by simpa [FIFO_Init] using hsz,
    by simpa [FIFO_Init] using hsz, by simp [FIFO_Init], by simpa [FIFO_Init] using hlen⟩

theorem invariant_init_dynamic (storage : List Nat) (size : Nat)
    (hlen : storage.length = size) (hsz : 1 ≤ size) :
    Invariant (FIFO_Init_Dynamic storage size) :=
  ⟨hsz, by simp [FIFO_Init_Dynamic], by simpa [FIFO_Init_Dynamic] using hsz,
    by simpa [FIFO_Init_Dynamic] using hsz, by simp [FIFO_Init_Dynamic],
    by simpa [FIFO_Init_Dynamic] using hlen⟩

theorem head_eq_tail_of_empty (f : FIFO_Buffer) (hInv : Invariant f)
    (hc : f.count = 0) : f.head = f.tail := by
  obtain ⟨_, _, _, htl, hht, _⟩ := hInv
  rw [hht, hc, Nat.add_zero, Nat.mod_eq_of_lt htl]

/-! ## Sequences of pushes and pops -/

/-- Pushing a list of bytes that fits in the remaining free space succeeds
and appends them to the logical contents. -/
theorem pushList_append (bs : List Nat) : ∀ f : FIFO_Buffer, Invariant f →
    f.count + bs.length ≤ f.size →
    (pushList f bs).1 = true ∧
    Invariant (pushList f bs).2 ∧
    toList (pushList f bs).2 = toList f ++ bs ∧
    (pushList f bs).2.count = f.count + bs.length ∧
    (pushList f bs).2.size = f.size := by
  induction bs with
  | nil =>
    intro f hInv _
    exact ⟨rfl, hInv, (List.append_nil _).symm, rfl, rfl⟩
  | cons b bs ih =>
    intro f hInv hcap
    have hlc : (b :: bs).length = bs.length + 1 := rfl
    have hc : f.count < f.size := by omega
    obtain ⟨h1, hInv2, h3, h4, h5, -, -, -, -⟩ := push_append f b hInv hc
    have hp : FIFO_Push f b = (true, (FIFO_Push f b).2) := by rw [← h1]
    have hstep : pushList f (b :: bs) = pushList (FIFO_Push f b).2 bs := by
      simp only [pushList]
      rw [hp]
    obtain ⟨g1, g2, g3, g4, g5⟩ :=
      ih (FIFO_Push f b).2 hInv2 (by rw [h4, h5]; omega)
    rw [hstep]
    refine ⟨g1, g2, ?_, ?_, by rw [g5, h5]⟩
    · rw [g3, h3, List.append_assoc, List.singleton_append]
    · rw [g4, h4, hlc]
      omega

/-- Popping `n` times from a ring holding exactly the `n`-element list `bs`
returns each element of `bs` in order, each pop succeeding, and drains the
ring. -/
theorem popN_elems (bs : List Nat) : ∀ f : FIFO_Buffer, Invariant f →
    toList f = bs →
    (popN f bs.length).1 = bs.map some ∧
    Invariant (popN f bs.length).2 ∧
    toList (popN f bs.length).2 = [] ∧
    (popN f bs.length).2.count = 0 := by
  induction bs with
  | nil =>
    intro f hInv hl
    have hc : f.count = 0 := by
      have := toList_length f
      rw [hl] at this
      simpa using this.symm
    exact ⟨rfl, hInv, hl, hc⟩
  | cons b bs ih =>
    intro f hInv hl
    obtain ⟨p1, p2, p3, -, -, -, -⟩ := pop_cons f hInv hl
    obtain ⟨g1, g2, g3, g4⟩ := ih (FIFO_Pop f).2 p2 p3
    refine ⟨?_, g2, g3, g4⟩
    show (FIFO_Pop f).1 :: (popN (FIFO_Pop f).2 bs.length).1 = (b :: bs).map some
    rw [p1, g1, List.map_cons]

/-! ## The `Add_UART_Message` push loop -/

/-- Unfolding `addLoop` in the running case. -/
theorem addLoop_run (f : FIFO_Buffer) (m : List Nat) (i length : Nat)
    (h : i < length) :
    addLoop f m i length =
      match FIFO_Push f (m.getD i 0) with
      | (true, f1) => addLoop f1 m (i + 1) length
      | (false, f1) => (false, f1) := by
  unfold addLoop
  rw [show length - i = (length - (i + 1)) + 1 by omega]
  rfl

/-- Unfolding `addLoop` in the finished case. -/
theorem addLoop_stop (f : FIFO_Buffer) (m : List Nat) (i length : Nat)
    (h : ¬ i < length) :
    addLoop f m i length = (true, f) := by
  unfold addLoop
  rw [show length - i = 0 by omega]
  rfl

/-- When the remaining bytes fit in the free space, the `Add_UART_Message`
loop pushes `m[i..length)` verbatim and succeeds. -/
theorem addLoop_complete (k : Nat) : ∀ (f : FIFO_Buffer) (m : List Nat) (i length : Nat),
    Invariant f → k = length - i → length ≤ m.length → f.count + k ≤ f.size →
    (addLoop f m i length).1 = true ∧
    Invariant (addLoop f m i length).2 ∧
    toList (addLoop f m i length).2 = toList f ++ (m.drop i).take (length - i) ∧
    (addLoop f m i length).2.count = f.count + k ∧
    (addLoop f m i length).2.size = f.size := by
  induction k with
  | zero =>
    intro f m i length hInv hk hmlen hcap
    have h : ¬ i < length := by omega
    rw [addLoop_stop f m i length h]
    refine ⟨rfl, hInv, ?_, (Nat.add_zero _).symm, rfl⟩
    rw [show length - i = 0 by omega]
    simp
  | succ k ih =>
    intro f m i length hInv hk hmlen hcap
    have hlt : i < length := by omega
    have hc : f.count < f.size := by omega
    obtain ⟨h1, hInv2, h3, h4, h5, -, -, -, -⟩ := push_append f (m.getD i 0) hInv hc
    have hp : FIFO_Push f (m.getD i 0) = (true, (FIFO_Push f (m.getD i 0)).2) := by
      rw [← h1]
    have hstep : addLoop f m i length =
        addLoop (FIFO_Push f (m.getD i 0)).2 m (i + 1) length := by
      rw [addLoop_run f m i length hlt, hp]
    obtain ⟨g1, g2, g3, g4, g5⟩ :=
      ih (FIFO_Push f (m.getD i 0)).2 m (i + 1) length hInv2 (by omega) hmlen
        (by rw [h4, h5]; omega)
    rw [hstep]
    refine ⟨g1, g2, ?_, ?_, by rw [g5, h5]⟩
    · rw [g3, h3, List.append_assoc, List.singleton_append]
      congr 1
      have hi_lt : i < m.length := by omega
      rw [List.drop_eq_getElem_cons hi_lt,
        show length - i = (length - (i + 1)) + 1 by omega, List.take_succ_cons,
        List.getD_eq_getElem m 0 hi_lt]
    · rw [g4, h4]
      omega

/-! ## The `Get_UART_Message` pop loop -/

/-- Unfolding `getLoop` in the running case. -/
theorem getLoop_run (f : FIFO_Buffer) (msg : List Nat) (cs i mlen : Nat)
    (h : i < mlen) :
    getLoop f msg cs i mlen =
      match FIFO_Pop f with
      | (none, f1) => (false, f1, msg, cs)
      | (some b, f1) => getLoop f1 (msg.set i b) (cs ^^^ b) (i + 1) mlen := by
  unfold getLoop
  rw [show mlen - i = (mlen - (i + 1)) + 1 by omega]
  rfl

/-- Unfolding `getLoop` in the finished case. -/
theorem getLoop_stop (f : FIFO_Buffer) (msg : List Nat) (cs i mlen : Nat)
    (h : ¬ i < mlen) :
    getLoop f msg cs i mlen = (true, f, msg, cs) := by
  unfold getLoop
  rw [show mlen - i = 0 by omega]
  rfl

/-- When the ring holds at least `mlen - i` bytes, the `Get_UART_Message`
loop pops exactly `mlen - i` of them, writes them at positions
`i, i+1, ...` of the output buffer, XORs them into the accumulator, and
reports success. -/
theorem getLoop_complete (k : Nat) :
    ∀ (f : FIFO_Buffer) (msg : List Nat) (cs i mlen : Nat) (rest : List Nat),
    Invariant f → toList f = rest → k = mlen - i → k ≤ rest.length →
    (getLoop f msg cs i mlen).1 = true ∧
    Invariant (getLoop f msg cs i mlen).2.1 ∧
    toList (getLoop f msg cs i mlen).2.1 = rest.drop k ∧
    (getLoop f msg cs i mlen).2.2.1 = writeFrom msg i (rest.take k) ∧
    (getLoop f msg cs i mlen).2.2.2 = (rest.take k).foldl (· ^^^ ·) cs := by
  induction k with
  | zero =>
    intro f msg cs i mlen rest hInv hl hk hkr
    have h : ¬ i < mlen := by omega
    rw [getLoop_stop f msg cs i mlen h]
    exact ⟨rfl, hInv, by simpa using hl, rfl, rfl⟩
  | succ k ih =>
    intro f msg cs i mlen rest hInv hl hk hkr
    have hlt : i < mlen := by omega
    obtain ⟨b, bs, rfl⟩ : ∃ b bs, rest = b :: bs := by
      cases rest with
      | nil => simp at hkr
      | cons b bs => exact ⟨b, bs, rfl⟩
    have hkr' : k ≤ bs.length := by
      have : (b :: bs).length = bs.length + 1 := rfl
      omega
    obtain ⟨p1, p2, p3, -, -, -, -⟩ := pop_cons f hInv hl
    have hp : FIFO_Pop f = (some b, (FIFO_Pop f).2) := by rw [← p1]
    have hstep : getLoop f msg cs i mlen =
        getLoop (FIFO_Pop f).2 (msg.set i b) (cs ^^^ b) (i + 1) mlen := by
      rw [getLoop_run f msg cs i mlen hlt, hp]
    obtain ⟨g1, g2, g3, g4, g5⟩ :=
      ih (FIFO_Pop f).2 (msg.set i b) (cs ^^^ b) (i + 1) mlen bs p2 p3 (by omega) hkr'
    rw [hstep]
    refine ⟨g1, g2, ?_, ?_, ?_⟩
    · rw [g3, List.drop_succ_cons]
    · rw [g4, List.take_succ_cons]
      rfl
    · rw [g5, List.take_succ_cons]
      rfl

/-- When the ring holds fewer than `mlen - i` bytes, the loop drains the
ring completely, writes every popped byte into the output buffer, and
reports failure. -/
theorem getLoop_short (rest : List Nat) :
    ∀ (f : FIFO_Buffer) (msg : List Nat) (cs i mlen : Nat),
    Invariant f → toList f = rest → rest.length < mlen - i →
    (getLoop f msg cs i mlen).1 = false ∧
    (getLoop f msg cs i mlen).2.1.count = 0 ∧
    (getLoop f msg cs i mlen).2.2.1 = writeFrom msg i rest := by
  induction rest with
  | nil =>
    intro f msg cs i mlen hInv hl hshort
    have hlt : i < mlen := by omega
    have hc0 : f.count = 0 := by
      have := toList_length f
      rw [hl] at this
      simpa using this.symm
    have hp : FIFO_Pop f = (none, f) := pop_empty f hc0
    rw [getLoop_run f msg cs i mlen hlt, hp]
    exact ⟨rfl, hc0, rfl⟩
  | cons b bs ih =>
    intro f msg cs i mlen hInv hl hshort
    have hlb : (b :: bs).length = bs.length + 1 := rfl
    have hlt : i < mlen := by omega
    obtain ⟨p1, p2, p3, -, -, -, -⟩ := pop_cons f hInv hl
    have hp : FIFO_Pop f = (some b, (FIFO_Pop f).2) := by rw [← p1]
    have hstep : getLoop f msg cs i mlen =
        getLoop (FIFO_Pop f).2 (msg.set i b) (cs ^^^ b) (i + 1) mlen := by
      rw [getLoop_run f msg cs i mlen hlt, hp]
    obtain ⟨g1, g2, g3⟩ :=
      ih (FIFO_Pop f).2 (msg.set i b) (cs ^^^ b) (i + 1) mlen p2 p3 (by omega)
    rw [hstep]
    exact ⟨g1, g2, g3⟩

/-! ## Pointwise description of `writeFrom` -/

theorem writeFrom_nil (msg : List Nat) (i : Nat) : writeFrom msg i [] = msg := rfl

theorem writeFrom_cons (msg : List Nat) (i b : Nat) (bs : List Nat) :
    writeFrom msg i (b :: bs) = writeFrom (msg.set i b) (i + 1) bs := rfl

theorem writeFrom_length (l : List Nat) : ∀ (msg : List Nat) (i : Nat),
    (writeFrom msg i l).length = msg.length := by
  induction l with
  | nil => intro msg i; rw [writeFrom_nil]
  | cons b bs ih =>
    intro msg i
    rw [writeFrom_cons, ih (msg.set i b) (i + 1), List.length_set]

theorem writeFrom_getD_lt (l : List Nat) : ∀ (msg : List Nat) (i j : Nat), j < i →
    (writeFrom msg i l).getD j 0 = msg.getD j 0 := by
  induction l with
  | nil => intro msg i j _; rw [writeFrom_nil]
  | cons b bs ih =>
    intro msg i j hj
    rw [writeFrom_cons, ih (msg.set i b) (i + 1) j (by omega), getD_set_ne b (by omega)]

theorem writeFrom_getD_in (l : List Nat) : ∀ (msg : List Nat) (i j : Nat),
    j < l.length → i + l.length ≤ msg.length →
    (writeFrom msg i l).getD (i + j) 0 = l.getD j 0 := by
  induction l with
  | nil => intro msg i j hj _; simp at hj
  | cons b bs ih =>
    intro msg i j hj hlen
    have hlb : (b :: bs).length = bs.length + 1 := rfl
    rw [writeFrom_cons]
    cases j with
    | zero =>
      rw [Nat.add_zero i, writeFrom_getD_lt bs (msg.set i b) (i + 1) i (by omega),
        getD_set_self b (by omega)]
      rfl
    | succ j =>
      rw [show i + (j + 1) = (i + 1) + j by omega,
        ih (msg.set i b) (i + 1) j (by omega) (by rw [List.length_set]; omega)]
      rfl

/-! ## End-to-end behaviour of `Get_UART_Message` on a framed ring -/

/-- `Get_UART_Message` on a ring whose contents start with a valid header
`0xAA, L` (`L ≥ 3`) and hold at least `L - 2` further bytes: the `L - 2`
payload bytes are consumed and written to the output buffer, the length
cell receives `L`, and the call succeeds exactly when their XOR is zero. -/
theorem get_complete (f : FIFO_Buffer) (msg0 : List Nat) (len0 L : Nat)
    (rest : List Nat) (hInv : Invariant f)
    (hl : toList f = MESSAGE_START_BYTE :: L :: rest) (hL : 3 ≤ L)
    (hav : L - 2 ≤ rest.length) :
    ((Get_UART_Message f msg0 len0).1 = true ↔
      (rest.take (L - 2)).foldl (· ^^^ ·) 0 = 0) ∧
    (Get_UART_Message f msg0 len0).2.2.2 = L ∧
    (Get_UART_Message f msg0 len0).2.2.1 =
      writeFrom ((msg0.set 0 MESSAGE_START_BYTE).set 1 L) 2 (rest.take (L - 2)) ∧
    Invariant (Get_UART_Message f msg0 len0).2.1 ∧
    toList (Get_UART_Message f msg0 len0).2.1 = rest.drop (L - 2) := by
  obtain ⟨p1, p2, p3, -, -, -, -⟩ := pop_cons f hInv hl
  have hcnt2 : f.count = rest.length + 2 := by
    have h := toList_length f
    rw [hl] at h
    simp only [List.length_cons] at h
    omega
  have hempty : FIFO_IsEmpty f = false := by
    simp only [FIFO_IsEmpty, beq_eq_false_iff_ne, ne_eq]
    omega
  cases hpop1 : FIFO_Pop f with
  | mk r1 f1 =>
    rw [hpop1] at p1 p2 p3
    have hr1 : r1 = some MESSAGE_START_BYTE := p1
    subst hr1
    obtain ⟨q1, q2, q3, -, -, -, -⟩ := pop_cons f1 p2 p3
    cases hpop2 : FIFO_Pop f1 with
    | mk r2 f2 =>
      rw [hpop2] at q1 q2 q3
      have hr2 : r2 = some L := q1
      subst hr2
      have hL3 : ¬ L < 3 := by omega
      obtain ⟨g1, g2, g3, g4, g5⟩ :=
        getLoop_complete (L - 2) f2 ((msg0.set 0 MESSAGE_START_BYTE).set 1 L) 0 2 L rest
          q2 q3 (by omega) hav
      rcases hloop : getLoop f2 ((msg0.set 0 MESSAGE_START_BYTE).set 1 L) 0 2 L
        with ⟨ok, f3, m3, cs⟩
      rw [hloop] at g1 g2 g3 g4 g5
      have hok : ok = true := g1
      subst hok
      have hGet : Get_UART_Message f msg0 len0 =
          if cs ≠ 0 then (false, f3, m3, L) else (true, f3, m3, L) := by
        simp [Get_UART_Message, hempty, hpop1, hpop2, hloop, hL3]
      have hcs_eq : cs = (rest.take (L - 2)).foldl (· ^^^ ·) 0 := g5
      by_cases hcs : cs = 0
      · have hG2 : Get_UART_Message f msg0 len0 = (true, f3, m3, L) := by
          rw [hGet, if_neg (show ¬ cs ≠ 0 by omega)]
        rw [hG2]
        exact ⟨⟨fun _ => by rw [← hcs_eq]; exact hcs, fun _ => rfl⟩, rfl, g4, g2, g3⟩
      · have hG2 : Get_UART_Message f msg0 len0 = (false, f3, m3, L) := by
          rw [hGet, if_pos hcs]
        rw [hG2]
        exact ⟨⟨fun h => absurd h Bool.false_ne_true,
          fun h => absurd (by rw [hcs_eq]; exact h) hcs⟩, rfl, g4, g2, g3⟩

/-- `Get_UART_Message` on a ring whose contents start with a valid header
`0xAA, L` (`L ≥ 3`) but hold fewer than `L - 2` further bytes: the ring is
drained, the popped bytes are written to the output buffer, the length cell
receives `L`, and the call fails. -/
theorem get_short (f : FIFO_Buffer) (msg0 : List Nat) (len0 L : Nat)
    (rest : List Nat) (hInv : Invariant f)
    (hl : toList f = MESSAGE_START_BYTE :: L :: rest) (hL : 3 ≤ L)
    (hav : rest.length < L - 2) :
    (Get_UART_Message f msg0 len0).1 = false ∧
    (Get_UART_Message f msg0 len0).2.2.2 = L ∧
    (Get_UART_Message f msg0 len0).2.2.1 =
      writeFrom ((msg0.set 0 MESSAGE_START_BYTE).set 1 L) 2 rest ∧
    (Get_UART_Message f msg0 len0).2.1.count = 0 := by
  obtain ⟨p1, p2, p3, -, -, -, -⟩ := pop_cons f hInv hl
  have hcnt2 : f.count = rest.length + 2 := by
    have h := toList_length f
    rw [hl] at h
    simp only [List.length_cons] at h
    omega
  have hempty : FIFO_IsEmpty f = false := by
    simp only [FIFO_IsEmpty, beq_eq_false_iff_ne, ne_eq]
    omega
  cases hpop1 : FIFO_Pop f with
  | mk r1 f1 =>
    rw [hpop1] at p1 p2 p3
    have hr1 : r1 = some MESSAGE_START_BYTE := p1
    subst hr1
    obtain ⟨q1, q2, q3, -, -, -, -⟩ := pop_cons f1 p2 p3
    cases hpop2 : FIFO_Pop f1 with
    | mk r2 f2 =>
      rw [hpop2] at q1 q2 q3
      have hr2 : r2 = some L := q1
      subst hr2
      have hL3 : ¬ L < 3 := by omega
      obtain ⟨s1, s2, s3⟩ :=
        getLoop_short rest f2 ((msg0.set 0 MESSAGE_START_BYTE).set 1 L) 0 2 L
          q2 q3 (by omega)
      rcases hloop : getLoop f2 ((msg0.set 0 MESSAGE_START_BYTE).set 1 L) 0 2 L
        with ⟨ok, f3, m3, cs⟩
      rw [hloop] at s1 s2 s3
      have hok : ok = false := s1
      subst hok
      have hGet : Get_UART_Message f msg0 len0 = (false, f3, m3, L) := by
        simp [Get_UART_Message, hempty, hpop1, hpop2, hloop, hL3]
      rw [hGet]
      exact ⟨rfl, rfl, s3, s2⟩

/-! ## The claims -/

/-- C1 (amended): for rings whose `size` equals the compile-time constant
`BUFFER_SIZE = 128` that `Add_UART_Message` actually checks against, the
claim holds as stated: with `L ≥ 3`, the call fails leaving the ring
unchanged exactly when the live free capacity `size - count` is below `L`,
and otherwise pushes all `L` bytes verbatim, in order, and succeeds.  (On
rings with `size ≠ BUFFER_SIZE` the code checks `BUFFER_SIZE - count`
instead of `size - count`; see the counterexample.) -/
theorem c1_add_message_space (f : FIFO_Buffer) (m : List Nat) (L : Nat)
    (hInv : Invariant f) (hsz : f.size = BUFFER_SIZE) (hm : m.length = L)
    (hL : 3 ≤ L) :
    (Add_UART_Message f m L = (false, f) ↔ f.size - f.count < L) ∧
    (((Add_UART_Message f m L).1 = true ∧
        toList (Add_UART_Message f m L).2 = toList f ++ m) ↔
      L ≤ f.size - f.count) := by
  have hcnt : f.count ≤ f.size := hInv.2.1
  have hsz' : f.size = 128 := hsz
  by_cases hfree : L ≤ f.size - f.count
  · have hcheck : ¬ (L < 3 ∨ (BUFFER_SIZE : Int) - (f.count : Int) < (L : Int)) := by
      rintro (h | h)
      · omega
      · have h' : (128 : Int) - (f.count : Int) < (L : Int) := h
        omega
    have hAdd : Add_UART_Message f m L = addLoop f m 0 L := by
      unfold Add_UART_Message
      rw [if_neg hcheck]
    obtain ⟨a1, a2, a3, a4, a5⟩ :=
      addLoop_complete L f m 0 L hInv (by omega) (by omega) (by omega)
    constructor
    · refine iff_of_false ?_ (by omega)
      intro hfalse
      rw [hAdd] at hfalse
      have h1 := congrArg Prod.fst hfalse
      rw [a1] at h1
      exact absurd h1.symm Bool.false_ne_true
    · refine iff_of_true ⟨?_, ?_⟩ hfree
      · rw [hAdd]
        exact a1
      · rw [hAdd, a3, List.drop_zero, List.take_of_length_le (by omega)]
  · have hcheck : L < 3 ∨ (BUFFER_SIZE : Int) - (f.count : Int) < (L : Int) := by
      right
      show (128 : Int) - (f.count : Int) < (L : Int)
      omega
    have hAdd : Add_UART_Message f m L = (false, f) := by
      unfold Add_UART_Message
      rw [if_pos hcheck]
    constructor
    · exact iff_of_true hAdd (by omega)
    · refine iff_of_false ?_ (by omega)
      rintro ⟨hb1, -⟩
      rw [hAdd] at hb1
      exact absurd hb1 Bool.false_ne_true

/-- C1 counterexample: a full ring of size 4 with overwrite enabled (a
well-formed, reachable state) has free capacity `0 < 3`, so the claim
demands failure with `InsufficientSpace`; `Add_UART_Message` nevertheless
returns success, because its space check compares against the constant
`BUFFER_SIZE = 128` rather than the ring's live `size - count`. -/
theorem c1_add_message_space_cex :
    Invariant (⟨[5, 6, 7, 9], 4, 0, 0, 4, 3, 1, true⟩ : FIFO_Buffer) ∧
    (⟨[5, 6, 7, 9], 4, 0, 0, 4, 3, 1, true⟩ : FIFO_Buffer).size -
      (⟨[5, 6, 7, 9], 4, 0, 0, 4, 3, 1, true⟩ : FIFO_Buffer).count < 3 ∧
    (Add_UART_Message ⟨[5, 6, 7, 9], 4, 0, 0, 4, 3, 1, true⟩ [17, 2, 19] 3).1 = true := by
  decide

set_option maxRecDepth 4000 in
/-- C1 witness: on a freshly initialised ring of size `BUFFER_SIZE = 128`,
adding a 3-byte message succeeds and appends exactly those bytes. -/
theorem c1_add_message_space_witness :
    (Add_UART_Message (FIFO_Init (List.replicate 128 0) 128) [0xAA, 3, 0] 3).1 = true ∧
    toList (Add_UART_Message (FIFO_Init (List.replicate 128 0) 128) [0xAA, 3, 0] 3).2 =
      toList (FIFO_Init (List.replicate 128 0) 128) ++ [0xAA, 3, 0] :=
  (c1_add_message_space (FIFO_Init (List.replicate 128 0) 128) [0xAA, 3, 0] 3
    (by decide) rfl rfl (by decide)).2.mpr (by decide)

/-- C2 (amended): the add-then-get round trip holds as claimed for every
well-formed message whose total length `len` also satisfies
`len ≤ BUFFER_SIZE = 128` (the constant `Add_UART_Message` checks against):
on an empty ring of capacity `≥ len`, `Add_UART_Message` succeeds and the
immediately following `Get_UART_Message` succeeds, reports `len`, and
reproduces the message byte for byte.  (For `len > 128` the add is
rejected even when the ring has room; see the counterexample.) -/
theorem c2_roundtrip (f : FIFO_Buffer) (msg0 : List Nat) (len0 len : Nat)
    (rest : List Nat) (hInv : Invariant f) (hempty : f.count = 0)
    (hL : 3 ≤ len) (hlen : rest.length + 2 = len)
    (hchk : rest.foldl (· ^^^ ·) 0 = 0) (hcap : len ≤ f.size)
    (hbs : len ≤ BUFFER_SIZE) (hout : len ≤ msg0.length) :
    (Add_UART_Message f (MESSAGE_START_BYTE :: len :: rest) len).1 = true ∧
    (Get_UART_Message (Add_UART_Message f (MESSAGE_START_BYTE :: len :: rest) len).2
      msg0 len0).1 = true ∧
    (Get_UART_Message (Add_UART_Message f (MESSAGE_START_BYTE :: len :: rest) len).2
      msg0 len0).2.2.2 = len ∧
    (∀ j, j < len →
      (Get_UART_Message (Add_UART_Message f (MESSAGE_START_BYTE :: len :: rest) len).2
        msg0 len0).2.2.1.getD j 0 = (MESSAGE_START_BYTE :: len :: rest).getD j 0) := by
  have hB : BUFFER_SIZE = 128 := rfl
  have hmlen : (MESSAGE_START_BYTE :: len :: rest).length = len := by
    simp only [List.length_cons]
    omega
  have hcheck : ¬ (len < 3 ∨ (BUFFER_SIZE : Int) - (f.count : Int) < (len : Int)) := by
    rintro (h | h)
    · omega
    · omega
  have hAdd : Add_UART_Message f (MESSAGE_START_BYTE :: len :: rest) len =
      addLoop f (MESSAGE_START_BYTE :: len :: rest) 0 len := by
    unfold Add_UART_Message
    rw [if_neg hcheck]
  obtain ⟨a1, a2, a3, a4, a5⟩ :=
    addLoop_complete len f (MESSAGE_START_BYTE :: len :: rest) 0 len hInv
      (by omega) (by omega) (by omega)
  have ha3 : toList (addLoop f (MESSAGE_START_BYTE :: len :: rest) 0 len).2 =
      MESSAGE_START_BYTE :: len :: rest := by
    rw [a3, List.drop_zero, List.take_of_length_le (by omega),
      toList_eq_nil f hempty, List.nil_append]
  obtain ⟨g1, g2, g3, g4, g5⟩ :=
    get_complete (addLoop f (MESSAGE_START_BYTE :: len :: rest) 0 len).2
      msg0 len0 len rest a2 ha3 hL (by omega)
  have htake : rest.take (len - 2) = rest := List.take_of_length_le (by omega)
  rw [hAdd]
  refine ⟨a1, g1.mpr (by rw [htake]; exact hchk), g2, ?_⟩
  intro j hj
  rw [g3, htake]
  rcases j with _ | j
  · rw [writeFrom_getD_lt rest ((msg0.set 0 MESSAGE_START_BYTE).set 1 len) 2 0 (by omega),
      getD_set_ne len (by omega), getD_set_self MESSAGE_START_BYTE (by omega),
      List.getD_cons_zero]
  rcases j with _ | j
  · rw [writeFrom_getD_lt rest ((msg0.set 0 MESSAGE_START_BYTE).set 1 len) 2 1 (by omega),
      getD_set_self len (by rw [List.length_set]; omega), List.getD_cons_succ,
      List.getD_cons_zero]
  · have hj' : j < rest.length := by omega
    have hRHS : (MESSAGE_START_BYTE :: len :: rest).getD (j + 1 + 1) 0 = rest.getD j 0 := by
      rw [List.getD_cons_succ, List.getD_cons_succ]
    rw [hRHS, show j + 1 + 1 = 2 + j by omega,
      writeFrom_getD_in rest ((msg0.set 0 MESSAGE_START_BYTE).set 1 len) 2 j hj'
        (by simp only [List.length_set]; omega)]

set_option maxRecDepth 10000 in
/-- C2 counterexample: a valid 129-byte message (start byte, length byte
129, 127 zero payload bytes XORing to 0) on an empty ring of capacity 200
satisfies every hypothesis of the claim, yet `Add_UART_Message` rejects it:
its space check uses `BUFFER_SIZE = 128`, not the ring's capacity. -/
theorem c2_roundtrip_cex :
    (FIFO_Init (List.replicate 200 0) 200).count = 0 ∧
    (3 : Nat) ≤ 129 ∧
    (List.replicate 127 0).length + 2 = 129 ∧
    ((List.replicate 127 0).foldl (· ^^^ ·) 0 : Nat) = 0 ∧
    129 ≤ (FIFO_Init (List.replicate 200 0) 200).size ∧
    (Add_UART_Message (FIFO_Init (List.replicate 200 0) 200)
      (MESSAGE_START_BYTE :: 129 :: List.replicate 127 0) 129).1 = false := by
  decide

/-- C2 witness: round trip of the message `[0xAA, 4, 0x10, 0x10]` through
an empty ring of capacity 8. -/
theorem c2_roundtrip_witness :
    (Add_UART_Message (FIFO_Init (List.replicate 8 0) 8) [0xAA, 4, 0x10, 0x10] 4).1 = true ∧
    (Get_UART_Message (Add_UART_Message (FIFO_Init (List.replicate 8 0) 8)
      [0xAA, 4, 0x10, 0x10] 4).2 (List.replicate 8 0) 0).1 = true ∧
    (Get_UART_Message (Add_UART_Message (FIFO_Init (List.replicate 8 0) 8)
      [0xAA, 4, 0x10, 0x10] 4).2 (List.replicate 8 0) 0).2.2.2 = 4 ∧
    (Get_UART_Message (Add_UART_Message (FIFO_Init (List.replicate 8 0) 8)
      [0xAA, 4, 0x10, 0x10] 4).2 (List.replicate 8 0) 0).2.2.1.getD 2 0 = 0x10 :=
  have h := c2_roundtrip (FIFO_Init (List.replicate 8 0) 8) (List.replicate 8 0) 0 4
    [0x10, 0x10] (by decide) rfl (by decide) (by decide) (by decide) (by decide)
    (by decide) (by decide)
  ⟨h.1, h.2.1, h.2.2.1, (h.2.2.2 2 (by decide)).trans rfl⟩

/-- C3: pushing `b1..bn` (`n ≤ size`) onto a freshly initialised ring with
`FIFO_Push` succeeds for every byte, and `n` subsequent `FIFO_Pop` calls
return exactly `b1..bn` in the original order, each pop succeeding. -/
theorem c3_fifo_order (buf : List Nat) (size : Nat) (bs : List Nat)
    (hbuf : buf.length = size) (hsz : 1 ≤ size) (hn : bs.length ≤ size) :
    (pushList (FIFO_Init buf size) bs).1 = true ∧
    (popN (pushList (FIFO_Init buf size) bs).2 bs.length).1 = bs.map some := by
  have hInv := invariant_init buf size hbuf hsz
  obtain ⟨h1, h2, h3, h4, h5⟩ := pushList_append bs (FIFO_Init buf size) hInv
    (show (FIFO_Init buf size).count + bs.length ≤ (FIFO_Init buf size).size by
      show 0 + bs.length ≤ size
      omega)
  have htl : toList (pushList (FIFO_Init buf size) bs).2 = bs := by
    rw [h3, toList_eq_nil (FIFO_Init buf size) rfl, List.nil_append]
  obtain ⟨g1, g2, g3, g4⟩ := popN_elems bs (pushList (FIFO_Init buf size) bs).2 h2 htl
  exact ⟨h1, g1⟩

/-- C3 witness: pushing `[10, 20, 30]` onto an empty ring of size 4 and
popping three times returns `[10, 20, 30]`. -/
theorem c3_fifo_order_witness :
    (pushList (FIFO_Init (List.replicate 4 0) 4) [10, 20, 30]).1 = true ∧
    (popN (pushList (FIFO_Init (List.replicate 4 0) 4) [10, 20, 30]).2 3).1 =
      [some 10, some 20, some 30] :=
  c3_fifo_order (List.replicate 4 0) 4 [10, 20, 30] rfl (by decide) (by decide)

/-- C4: pushing onto a full ring with overwrite enabled succeeds, keeps
`count = size`, advances `tail` by one modulo `size`, stores the byte at
the old `head`, and the old oldest byte is gone: the logical contents
become `(old contents).drop 1 ++ [b]`, which is exactly what every
subsequent `FIFO_Pop` (via `popN`) and every `FIFO_Peek` sees. -/
theorem c4_overwrite_push (f : FIFO_Buffer) (b : Nat) (hInv : Invariant f)
    (hfull : f.count = f.size) (hov : f.overwrite_enabled = true) :
    (FIFO_Push f b).1 = true ∧
    (FIFO_Push f b).2.count = f.size ∧
    (FIFO_Push f b).2.tail = (f.tail + 1) % f.size ∧
    (FIFO_Push f b).2.buffer = f.buffer.set f.head b ∧
    toList (FIFO_Push f b).2 = (toList f).drop 1 ++ [b] ∧
    (popN (FIFO_Push f b).2 f.size).1 = ((toList f).drop 1 ++ [b]).map some ∧
    (∀ i : Nat, FIFO_Peek (FIFO_Push f b).2 i = ((toList f).drop 1 ++ [b])[i]?) := by
  obtain ⟨h1, h2, h3, h4, h5, h6⟩ := push_full_overwrite f b hInv hfull hov
  refine ⟨h1, h4, h5, h6, h3, ?_, ?_⟩
  · have hlen : ((toList f).drop 1 ++ [b]).length = f.size := by
      simp only [List.length_append, List.length_drop, toList_length, List.length_cons,
        List.length_nil, hfull]
      have hsz : 0 < f.size := hInv.1
      omega
    have hp := popN_elems ((toList f).drop 1 ++ [b]) (FIFO_Push f b).2 h2 h3
    rw [hlen] at hp
    exact hp.1
  · intro i
    rw [peek_toList (FIFO_Push f b).2 h2 i, h3]

/-- C4 witness: overwriting push of `9` onto the full ring holding
`[1, 2, 3, 4]`. -/
theorem c4_overwrite_push_witness :
    (FIFO_Push ⟨[1, 2, 3, 4], 4, 0, 0, 4, 3, 1, true⟩ 9).1 = true ∧
    (FIFO_Push ⟨[1, 2, 3, 4], 4, 0, 0, 4, 3, 1, true⟩ 9).2.count = 4 ∧
    (FIFO_Push ⟨[1, 2, 3, 4], 4, 0, 0, 4, 3, 1, true⟩ 9).2.tail = 1 ∧
    toList (FIFO_Push ⟨[1, 2, 3, 4], 4, 0, 0, 4, 3, 1, true⟩ 9).2 = [2, 3, 4, 9] :=
  have h := c4_overwrite_push ⟨[1, 2, 3, 4], 4, 0, 0, 4, 3, 1, true⟩ 9 (by decide) rfl rfl
  ⟨h.1, h.2.1, h.2.2.1, h.2.2.2.2.1⟩

/-- C5: pushing onto a full ring with overwrite disabled returns failure
and leaves the entire state — `count`, `head`, `tail`, and every stored
byte — unchanged. -/
theorem c5_full_push_rejected (f : FIFO_Buffer) (b : Nat)
    (hfull : f.count = f.size) (hov : f.overwrite_enabled = false) :
    FIFO_Push f b = (false, f) :=
  push_full_no_overwrite f b hfull hov

/-- C5 witness: rejected push on a full size-2 ring. -/
theorem c5_full_push_rejected_witness :
    FIFO_Push ⟨[1, 2], 2, 0, 0, 2, 1, 1, false⟩ 9 =
      (false, ⟨[1, 2], 2, 0, 0, 2, 1, 1, false⟩) :=
  c5_full_push_rejected ⟨[1, 2], 2, 0, 0, 2, 1, 1, false⟩ 9 rfl rfl

/-- C6: on a ring holding an otherwise well-formed message — start byte
`0xAA`, length byte `L ≥ 3`, at least `L - 2` further bytes available —
`Get_UART_Message` succeeds exactly when the bytes at message offsets
`2..L-1` XOR to zero, and fails otherwise.  Concretely, on a capacity-8
ring, after pushing `[0xAA, 0x04, 0x10, 0x14]` (XOR `0x04 ≠ 0`) the next
`Get_UART_Message` fails, while after `[0xAA, 0x04, 0x10, 0x10]` (XOR `0`)
it succeeds with output length 4. -/
theorem c6_checksum (f : FIFO_Buffer) (msg0 : List Nat) (len0 L : Nat)
    (rest : List Nat) (hInv : Invariant f)
    (hl : toList f = MESSAGE_START_BYTE :: L :: rest) (hL : 3 ≤ L)
    (hav : L - 2 ≤ rest.length) :
    ((Get_UART_Message f msg0 len0).1 = true ↔
      (rest.take (L - 2)).foldl (· ^^^ ·) 0 = 0) ∧
    (Get_UART_Message (pushList (FIFO_Init (List.replicate 8 0) 8)
      [0xAA, 0x04, 0x10, 0x14]).2 (List.replicate 8 0) 0).1 = false ∧
    (Get_UART_Message (pushList (FIFO_Init (List.replicate 8 0) 8)
      [0xAA, 0x04, 0x10, 0x10]).2 (List.replicate 8 0) 0).1 = true ∧
    (Get_UART_Message (pushList (FIFO_Init (List.replicate 8 0) 8)
      [0xAA, 0x04, 0x10, 0x10]).2 (List.replicate 8 0) 0).2.2.2 = 4 :=
  ⟨(get_complete f msg0 len0 L rest hInv hl hL hav).1, by decide, by decide, by decide⟩

/-- C6 witness: the iff applied to the ring holding
`[0xAA, 0x04, 0x10, 0x14]`, whose payload XOR is `0x04 ≠ 0`, forces the
call to fail. -/
theorem c6_checksum_witness :
    (Get_UART_Message (pushList (FIFO_Init (List.replicate 8 0) 8)
      [0xAA, 0x04, 0x10, 0x14]).2 (List.replicate 8 0) 0).1 = false := by
  have h := (c6_checksum (pushList (FIFO_Init (List.replicate 8 0) 8)
    [0xAA, 0x04, 0x10, 0x14]).2 (List.replicate 8 0) 0 4 [0x10, 0x14]
    (by decide) (by decide) (by decide) (by decide)).1
  cases hb : (Get_UART_Message (pushList (FIFO_Init (List.replicate 8 0) 8)
    [0xAA, 0x04, 0x10, 0x14]).2 (List.replicate 8 0) 0).1 with
  | false => exact hb
  | true => exact absurd (h.mp hb) (by decide)

/-- C7: when the ring is non-empty and the byte at its tail is not the
start marker `0xAA`, `Get_UART_Message` fails having consumed exactly that
one byte: `count` drops by one, `tail` advances by one modulo `size`, and
everything else — `head`, the stored bytes, and the caller's output buffer
and length cell — is untouched. -/
theorem c7_invalid_start (f : FIFO_Buffer) (msg0 : List Nat) (len0 : Nat)
    (hne : f.count ≠ 0) (hs : f.buffer.getD f.tail 0 ≠ MESSAGE_START_BYTE) :
    Get_UART_Message f msg0 len0 =
      (false, { f with tail := (f.tail + 1) % f.size, count := f.count - 1 },
       msg0, len0) := by
  have hempty : FIFO_IsEmpty f = false := by
    simp only [FIFO_IsEmpty, beq_eq_false_iff_ne, ne_eq]
    exact hne
  have hpop : FIFO_Pop f =
      (some (f.buffer.getD f.tail 0),
       { f with tail := (f.tail + 1) % f.size, count := f.count - 1 }) := by
    simp [FIFO_Pop, hne]
  simp [Get_UART_Message, hempty, hpop, hs]
  intro hc
  exact absurd hc (by simpa [List.getD_eq_getElem?_getD] using hs)

/-- C7 witness: a ring holding `[1, 2, 3]` (tail byte `1 ≠ 0xAA`) fails
the parse and loses exactly the byte `1`. -/
theorem c7_invalid_start_witness :
    Get_UART_Message ⟨[1, 2, 3, 4], 4, 3, 0, 3, 3, 1, false⟩ [0, 0] 0 =
      (false, ⟨[1, 2, 3, 4], 4, 3, 1, 2, 3, 1, false⟩, [0, 0], 0) :=
  c7_invalid_start ⟨[1, 2, 3, 4], 4, 3, 0, 3, 3, 1, false⟩ [0, 0] 0
    (by decide) (by decide)

/-- C8 (amended): `FIFO_CheckWatermarks` evaluates the claimed detection
conditions in its branch structure — the high branch is taken exactly when
`count ≥ high_watermark` (taking precedence when thresholds overlap), the
low branch exactly when `count < high_watermark` and
`count ≤ low_watermark`, and neither otherwise — it performs no reactive
behaviour and leaves the ring unchanged; but its C return type is `void`
and both branches are empty, so which case applies is not returned to the
caller. -/
theorem c8_watermarks (f : FIFO_Buffer) :
    (FIFO_CheckWatermarks f).2 = f ∧
    (FIFO_CheckWatermarks f).1 = () ∧
    ((watermarkBranch f = WatermarkEvent.high) ↔ f.high_watermark ≤ f.count) ∧
    ((watermarkBranch f = WatermarkEvent.low) ↔
      f.count < f.high_watermark ∧ f.count ≤ f.low_watermark) ∧
    ((watermarkBranch f = WatermarkEvent.none) ↔
      f.count < f.high_watermark ∧ f.low_watermark < f.count) := by
  refine ⟨?_, rfl, ?_, ?_, ?_⟩
  · by_cases h1 : f.count ≥ f.high_watermark
    · simp [FIFO_CheckWatermarks, h1]
    · by_cases h2 : f.count ≤ f.low_watermark <;>
        simp [FIFO_CheckWatermarks, h1, h2]
  · by_cases h1 : f.count ≥ f.high_watermark <;>
      by_cases h2 : f.count ≤ f.low_watermark <;>
        simp [watermarkBranch, h1, h2] <;> omega
  · by_cases h1 : f.count ≥ f.high_watermark <;>
      by_cases h2 : f.count ≤ f.low_watermark <;>
        simp [watermarkBranch, h1, h2] <;> omega
  · by_cases h1 : f.count ≥ f.high_watermark <;>
      by_cases h2 : f.count ≤ f.low_watermark <;>
        simp [watermarkBranch, h1, h2] <;> omega

/-- C8 counterexample: the claim says the function *returns* which of
{high, low, none} applies, but its return value (C `void`, embedded as
`Unit`) is identical on a state in the high branch and a state in the low
branch — the detection outcome is not communicated to the caller. -/
theorem c8_watermarks_cex :
    watermarkBranch ⟨[0, 0], 2, 0, 0, 2, 1, 0, false⟩ ≠
      watermarkBranch ⟨[0, 0], 2, 0, 0, 0, 5, 1, false⟩ ∧
    (FIFO_CheckWatermarks ⟨[0, 0], 2, 0, 0, 2, 1, 0, false⟩).1 =
      (FIFO_CheckWatermarks ⟨[0, 0], 2, 0, 0, 0, 5, 1, false⟩).1 := by
  exact ⟨by decide, rfl⟩

/-- C9: rings initialised by `FIFO_Init` or `FIFO_Init_Dynamic` with
`size ≥ 1` satisfy, after every sequence of push / push-overwrite / pop /
peek / reset operations, the invariant `count ≤ size`, `head < size`,
`tail < size`, `head = (tail + count) % size` (and `buffer` keeps `size`
cells); in particular `count = 0` implies `head = tail`, also after
overwrite wraparound. -/
theorem c9_invariant (buf storage : List Nat) (size : Nat) (ops : List Op)
    (hbuf : buf.length = size) (hstore : storage.length = size) (hsz : 1 ≤ size) :
    (Invariant (applyOps (FIFO_Init buf size) ops) ∧
      ((applyOps (FIFO_Init buf size) ops).count = 0 →
        (applyOps (FIFO_Init buf size) ops).head =
          (applyOps (FIFO_Init buf size) ops).tail)) ∧
    (Invariant (applyOps (FIFO_Init_Dynamic storage size) ops) ∧
      ((applyOps (FIFO_Init_Dynamic storage size) ops).count = 0 →
        (applyOps (FIFO_Init_Dynamic storage size) ops).head =
          (applyOps (FIFO_Init_Dynamic storage size) ops).tail)) := by
  have hI1 := invariant_applyOps (FIFO_Init buf size) ops
    (invariant_init buf size hbuf hsz)
  have hI2 := invariant_applyOps (FIFO_Init_Dynamic storage size) ops
    (invariant_init_dynamic storage size hstore hsz)
  exact ⟨⟨hI1, head_eq_tail_of_empty _ hI1⟩, ⟨hI2, head_eq_tail_of_empty _ hI2⟩⟩

/-- C9 witness: a size-2 ring driven through push, overwrite wraparound,
pop, peek and reset keeps the invariant, and being empty its `head` equals
its `tail`. -/
theorem c9_invariant_witness :
    Invariant (applyOps (FIFO_Init (List.replicate 2 0) 2)
      [Op.push 5, Op.push 6, Op.pushOverwrite 7, Op.peek 0, Op.pop, Op.reset]) ∧
    (applyOps (FIFO_Init (List.replicate 2 0) 2)
      [Op.push 5, Op.push 6, Op.pushOverwrite 7, Op.peek 0, Op.pop, Op.reset]).head =
      (applyOps (FIFO_Init (List.replicate 2 0) 2)
        [Op.push 5, Op.push 6, Op.pushOverwrite 7, Op.peek 0, Op.pop, Op.reset]).tail :=
  have h := c9_invariant (List.replicate 2 0) (List.replicate 2 0) 2
    [Op.push 5, Op.push 6, Op.pushOverwrite 7, Op.peek 0, Op.pop, Op.reset]
    rfl rfl (by decide)
  ⟨h.1.1, h.1.2 (by decide)⟩

/-- C10: whenever `Get_UART_Message` has popped a start byte `0xAA` and a
length byte `L ≥ 3` but the call ultimately fails (ring runs dry
mid-message, or nonzero checksum), the caller's outputs are already
written: `*length = L`, `message[0] = 0xAA`, `message[1] = L`, and every
successfully popped payload byte — the first `min (L-2) rest.length` bytes
after the header — sits at `message[2..]`. -/
theorem c10_partial_output (f : FIFO_Buffer) (msg0 : List Nat) (len0 L : Nat)
    (rest : List Nat) (hInv : Invariant f)
    (hl : toList f = MESSAGE_START_BYTE :: L :: rest) (hL : 3 ≤ L)
    (hout : L ≤ msg0.length)
    (hfail : (Get_UART_Message f msg0 len0).1 = false) :
    (Get_UART_Message f msg0 len0).2.2.2 = L ∧
    (Get_UART_Message f msg0 len0).2.2.1.getD 0 0 = MESSAGE_START_BYTE ∧
    (Get_UART_Message f msg0 len0).2.2.1.getD 1 0 = L ∧
    (Get_UART_Message f msg0 len0).2.2.1 =
      writeFrom ((msg0.set 0 MESSAGE_START_BYTE).set 1 L) 2 (rest.take (L - 2)) ∧
    (∀ j, j < Nat.min (L - 2) rest.length →
      (Get_UART_Message f msg0 len0).2.2.1.getD (2 + j) 0 = rest.getD j 0) := by
  obtain ⟨hmsg, hlenout⟩ :
      (Get_UART_Message f msg0 len0).2.2.1 =
        writeFrom ((msg0.set 0 MESSAGE_START_BYTE).set 1 L) 2 (rest.take (L - 2)) ∧
      (Get_UART_Message f msg0 len0).2.2.2 = L := by
    by_cases hav : L - 2 ≤ rest.length
    · have h := get_complete f msg0 len0 L rest hInv hl hL hav
      exact ⟨h.2.2.1, h.2.1⟩
    · have h := get_short f msg0 len0 L rest hInv hl hL (by omega)
      refine ⟨?_, h.2.1⟩
      rw [h.2.2.1, List.take_of_length_le (by omega)]
  refine ⟨hlenout, ?_, ?_, hmsg, ?_⟩
  · rw [hmsg, writeFrom_getD_lt (rest.take (L - 2)) _ 2 0 (by omega),
      getD_set_ne L (by omega), getD_set_self MESSAGE_START_BYTE (by omega)]
  · rw [hmsg, writeFrom_getD_lt (rest.take (L - 2)) _ 2 1 (by omega),
      getD_set_self L (by rw [List.length_set]; omega)]
  · intro j hj
    have hj1 : j < L - 2 := lt_of_lt_of_le hj (Nat.min_le_left _ _)
    have hj2 : j < rest.length := lt_of_lt_of_le hj (Nat.min_le_right _ _)
    have hjt : j < (rest.take (L - 2)).length := by
      rw [List.length_take]
      exact lt_inf_iff.mpr ⟨hj1, hj2⟩
    have hgetD : (rest.take (L - 2)).getD j 0 = rest.getD j 0 := by
      rw [List.getD_eq_getElem?_getD, List.getD_eq_getElem?_getD,
        List.getElem?_take_of_lt hj1]
    rw [hmsg, writeFrom_getD_in (rest.take (L - 2)) _ 2 j hjt
      (by
        simp only [List.length_set, List.length_take]
        have h1 : (L - 2) ⊓ rest.length ≤ L - 2 := inf_le_left
        omega), hgetD]

/-- C10 witness: the checksum-mismatch run on `[0xAA, 0x04, 0x10, 0x14]`
fails, yet the caller's buffer holds the complete message and the length
cell holds 4. -/
theorem c10_partial_output_witness :
    (Get_UART_Message (pushList (FIFO_Init (List.replicate 8 0) 8)
      [0xAA, 0x04, 0x10, 0x14]).2 (List.replicate 8 0) 0).2.2.2 = 4 ∧
    (Get_UART_Message (pushList (FIFO_Init (List.replicate 8 0) 8)
      [0xAA, 0x04, 0x10, 0x14]).2 (List.replicate 8 0) 0).2.2.1.getD 0 0 = 0xAA ∧
    (Get_UART_Message (pushList (FIFO_Init (List.replicate 8 0) 8)
      [0xAA, 0x04, 0x10, 0x14]).2 (List.replicate 8 0) 0).2.2.1.getD 1 0 = 4 ∧
    (Get_UART_Message (pushList (FIFO_Init (List.replicate 8 0) 8)
      [0xAA, 0x04, 0x10, 0x14]).2 (List.replicate 8 0) 0).2.2.1.getD 2 0 = 0x10 ∧
    (Get_UART_Message (pushList (FIFO_Init (List.replicate 8 0) 8)
      [0xAA, 0x04, 0x10, 0x14]).2 (List.replicate 8 0) 0).2.2.1.getD 3 0 = 0x14 :=
  have h := c10_partial_output (pushList (FIFO_Init (List.replicate 8 0) 8)
    [0xAA, 0x04, 0x10, 0x14]).2 (List.replicate 8 0) 0 4 [0x10, 0x14]
    (by decide) (by decide) (by decide) (by decide) (by decide)
  ⟨h.1, h.2.1, h.2.2.1, (h.2.2.2.2 0 (by decide)).trans rfl,
    (h.2.2.2.2 1 (by decide)).trans rfl⟩

end Fifo
